import Mathlib

/-!
Verification of the URL-cleaning core of the urlaundry repository
(src/src/App.tsx): the helper `isValidUrl`, the routine `cleanUrl`, and
the static domain-policy table `importantParams`.

The source relies on the platform's standard WHATWG `URL` constructor and
`URLSearchParams`.  Those primitives are not part of the repository, so they
are modelled here by an executable parser `parseUrl` over character lists,
covering absolute URLs of the shape `scheme://host[:port]/path?query#fragment`
with `application/x-www-form-urlencoded` query splitting (split on the
character '&', each piece split at its first '='; empty pieces dropped;
`get` returns the value of the first pair with the given name, `has` tests
presence of any pair, `set` on a fresh URL appends a pair).  Platform
behaviours that no analysed property depends on are not modelled: percent
encoding and decoding, IDN and case normalisation, default-port elision,
dot-segment path normalisation, userinfo, IPv6 hosts, and the slash
flexibility of special schemes.  Parsing fails (like the constructor
throwing) on strings without a `scheme://` part, an empty host, a
non-numeric port, or forbidden host characters.
-/

/-- Splits a character list at the first character satisfying `p`: returns
the prefix of characters failing `p` and the remainder (which is empty or
starts with a character satisfying `p`). -/
def splitAtFirst (p : Char → Bool) : List Char → List Char × List Char
  | [] => ([], [])
  | c :: cs =>
    if p c then ([], c :: cs)
    else (c :: (splitAtFirst p cs).1, (splitAtFirst p cs).2)

/-- Splits a character list on the character '&' (separator semantics of
`URLSearchParams` parsing). -/
def splitSegs : List Char → List (List Char)
  | [] => [[]]
  | c :: cs =>
    if c = '&' then [] :: splitSegs cs
    else (c :: (splitSegs cs).headD []) :: (splitSegs cs).tail

/-- Joins segments with the character '&' (serialisation counterpart of
`splitSegs`). -/
def joinAmp : List (List Char) → List Char
  | [] => []
  | [s] => s
  | s :: ss => s ++ '&' :: joinAmp ss

/-- Scheme characters after the first: ALPHA / DIGIT / "+" / "-" / ".". -/
def isSchemeChar (c : Char) : Bool :=
  c.isAlphanum || c == '+' || c == '-' || c == '.'

/-- A valid scheme is nonempty, starts with a letter and continues with
scheme characters. -/
def schemeOk (s : List Char) : Bool :=
  match s with
  | [] => false
  | c :: rest => c.isAlpha && rest.all isSchemeChar

/-- Characters ending the authority (host and port) section of a URL. -/
def isAuthorityEnd (c : Char) : Bool :=
  c == '/' || c == '?' || c == '#'

/-- Characters the model rejects inside the authority section (userinfo,
IPv6 brackets and spaces are not modelled; the platform constructor throws
or re-interprets on them). -/
def isHostForbidden (c : Char) : Bool :=
  c == '@' || c == '[' || c == ']' || c == ' '

/-- Parses one `name=value` query segment: the name is everything before the
first '=', the value everything after it (empty when there is no '='). -/
def parseSeg (seg : List Char) : List Char × List Char :=
  ((splitAtFirst (fun c => c == '=') seg).1, (splitAtFirst (fun c => c == '=') seg).2.drop 1)

/-- Parses a raw query string into its ordered name-value pairs: split on
'&', drop empty segments, split each segment at its first '='. -/
def parseQuery (q : List Char) : List (List Char × List Char) :=
  (splitSegs q).filterMap (fun seg => if seg.isEmpty then none else some (parseSeg seg))

/-- Parses the authority section: splits off an optional `:port` (digits
only), rejects an empty host and forbidden characters. -/
def parseAuthority (auth : List Char) : Option (List Char × Option (List Char)) :=
  if auth.isEmpty then none
  else if auth.any isHostForbidden then none
  else if (splitAtFirst (fun c => c == ':') auth).1.isEmpty then none
  else
    match (splitAtFirst (fun c => c == ':') auth).2 with
    | [] => some ((splitAtFirst (fun c => c == ':') auth).1, none)
    | ':' :: pcs =>
      if pcs.isEmpty then some ((splitAtFirst (fun c => c == ':') auth).1, none)
      else if pcs.all Char.isDigit then some ((splitAtFirst (fun c => c == ':') auth).1, some pcs)
      else none
    | _ => none

/-- The pathname a URL with post-authority remainder `r` gets: the
characters before any '?' or '#', normalised to "/" when absent. -/
def pathOf (r : List Char) : List Char :=
  if (splitAtFirst (fun c => c == '?' || c == '#') r).1.isEmpty then ['/']
  else (splitAtFirst (fun c => c == '?' || c == '#') r).1

/-- Parses the part after the authority: path (normalised to "/" when
absent), query pairs and fragment. -/
def parseAfterAuthority (r : List Char) :
    List Char × List (List Char × List Char) × Option (List Char) :=
  match (splitAtFirst (fun c => c == '?' || c == '#') r).2 with
  | '?' :: qf =>
    match (splitAtFirst (fun c => c == '#') qf).2 with
    | '#' :: f => (pathOf r, parseQuery (splitAtFirst (fun c => c == '#') qf).1, some f)
    | _ => (pathOf r, parseQuery (splitAtFirst (fun c => c == '#') qf).1, none)
  | '#' :: f => (pathOf r, [], some f)
  | _ => (pathOf r, [], none)

/-- A parsed absolute URL: the components the cleaning routine reads
(`hostname`, `pathname`, `searchParams`, `hash`) plus what `origin` and
`toString` need. -/
structure ParsedURL where
  scheme : List Char
  host : List Char
  port : Option (List Char)
  path : List Char
  query : List (List Char × List Char)
  fragment : Option (List Char)
deriving DecidableEq

/-- Model of the platform URL constructor on the `scheme://...` shape: the
scheme runs to the first ':', "//" must follow, then authority, path, query
and fragment.  Returns `none` where the constructor throws. -/
def parseUrl (cs : List Char) : Option ParsedURL :=
  if schemeOk (splitAtFirst (fun c => c == ':') cs).1 then
    match (splitAtFirst (fun c => c == ':') cs).2 with
    | ':' :: '/' :: '/' :: rest2 =>
      match parseAuthority (splitAtFirst isAuthorityEnd rest2).1 with
      | some hp =>
        some ⟨(splitAtFirst (fun c => c == ':') cs).1, hp.1, hp.2,
          (parseAfterAuthority (splitAtFirst isAuthorityEnd rest2).2).1,
          (parseAfterAuthority (splitAtFirst isAuthorityEnd rest2).2).2.1,
          (parseAfterAuthority (splitAtFirst isAuthorityEnd rest2).2).2.2⟩
      | none => none
    | _ => none
  else none

/-- Serialisation of the optional port (`:port` when present). -/
def portStr : Option (List Char) → List Char
  | some p => ':' :: p
  | none => []

/-- Model of `urlObj.origin`: scheme, "://", host and optional port. -/
def originStr (u : ParsedURL) : List Char :=
  u.scheme ++ ':' :: '/' :: '/' :: (u.host ++ portStr u.port)

/-- Model of `urlObj.hash` followed by the source's truthiness test: the
fragment with leading '#' when present and nonempty, otherwise nothing. -/
def hashStr (u : ParsedURL) : List Char :=
  match u.fragment with
  | some f => if f.isEmpty then [] else '#' :: f
  | none => []

/-- The fragment a re-parse of the cleaned output sees: an empty fragment
is dropped by the source's truthiness test on `urlObj.hash`, a nonempty one
survives. -/
def normFrag : Option (List Char) → Option (List Char)
  | some f => if f.isEmpty then none else some f
  | none => none

/-- Serialises query pairs in `application/x-www-form-urlencoded` layout:
`name=value` segments joined by '&'. -/
def serializeQuery (pairs : List (List Char × List Char)) : List Char :=
  joinAmp (pairs.map (fun pr => pr.1 ++ '=' :: pr.2))

/-- The query part of a serialised URL: '?' plus the pairs, or nothing when
there are none. -/
def queryStr (pairs : List (List Char × List Char)) : List Char :=
  if pairs.isEmpty then [] else '?' :: serializeQuery pairs

/-- Model of `urlObj.searchParams.has(p)`: some pair has name `p`. -/
def hasParam (q : List (List Char × List Char)) (p : String) : Bool :=
  q.any (fun pr => pr.1 == p.data)

/-- Model of `urlObj.searchParams.get(p)`: the value of the first pair named
`p` (the routine only calls it under a `has` guard, so the `[]` default is
never reached on its call sites). -/
def getParam (q : List (List Char × List Char)) (p : String) : List Char :=
  match q.find? (fun pr => pr.1 == p.data) with
  | some pr => pr.2
  | none => []

/-- The static domain-policy table `importantParams` of `cleanUrl`, in
declaration order. -/
def importantParams : List (String × List String) :=
  [("youtube.com", ["v", "t", "list", "index", "start"]),
   ("youtu.be", ["t", "si"]),
   ("vimeo.com", ["h", "clip_id"]),
   ("twitch.tv", ["video", "collection", "t"]),
   ("dailymotion.com", ["video"]),
   ("google.com", ["q", "tbm", "tbs", "start", "hl"]),
   ("bing.com", ["q", "filters", "pq"]),
   ("duckduckgo.com", ["q", "ia", "t", "kp"]),
   ("maps.google.com", ["q", "z", "ll", "t", "data", "mapclient", "mra", "daddr", "saddr"]),
   ("openstreetmap.org", ["mlat", "mlon", "zoom"]),
   ("amazon.com", ["dp", "gp/product", "pf_rd_r"]),
   ("ebay.com", ["item", "itm"]),
   ("etsy.com", ["listing"]),
   ("spotify.com", ["track", "album", "playlist", "show", "episode"]),
   ("soundcloud.com", ["in", "t"]),
   ("netflix.com", ["trackId", "jbv", "jb"]),
   ("twitter.com", ["status", "id", "q", "s"]),
   ("x.com", ["status", "id", "q", "s"]),
   ("reddit.com", ["sort", "after", "before", "t", "q"]),
   ("linkedin.com", ["trackingId"]),
   ("facebook.com", ["story_fbid", "id", "video_id", "set"]),
   ("instagram.com", ["igshid"]),
   ("github.com", ["q", "tab", "l", "t", "since", "until", "type"]),
   ("docs.google.com", ["gid", "usp"]),
   ("drive.google.com", ["id"]),
   ("stackoverflow.com", ["q", "sort", "page", "tab"]),
   ("medium.com", ["source", "id"]),
   ("nytimes.com", ["searchResultPosition"]),
   ("wikipedia.org", ["oldid", "uselang", "title", "section"]),
   ("zoom.us", ["pwd", "uname"]),
   ("meet.google.com", ["authuser"])]

/-- The table keys in declaration order (`Object.keys(importantParams)`). -/
def domainKeys : List String :=
  importantParams.map Prod.fst

/-- Lowercase ASCII letter test, the character class `[a-z]` of the ccTLD
regex. -/
def isLowerAlpha (c : Char) : Bool :=
  'a' ≤ c && c ≤ 'z'

/-- The last `n` characters of a list. -/
def lastN (n : Nat) (l : List Char) : List Char :=
  l.drop (l.length - n)

/-- One width of the ccTLD regex: the last `n` characters are lowercase
letters and `"." ++ d ++ "." ++ those characters` ends the host. -/
def tldSuffixCheck (host d : List Char) (n : Nat) : Bool :=
  (lastN n host).length == n && (lastN n host).all isLowerAlpha &&
    List.isSuffixOf ('.' :: d ++ '.' :: lastN n host) host

/-- Model of the regex test
`hostname.match(new RegExp("\\." ++ escaped d ++ "\\.[a-z]\x7b2,3\x7d$"))`:
the host ends in a literal '.', the key `d` with its dots literal, another
'.', and a two- or three-letter lowercase tail. -/
def cctldMatches (host d : List Char) : Bool :=
  tldSuffixCheck host d 2 || tldSuffixCheck host d 3

/-- Model of `hostname.endsWith("." ++ d)`, the subdomain rule. -/
def subdomainMatches (host : List Char) (d : String) : Bool :=
  List.isSuffixOf ('.' :: d.data) host

/-- The predicate of the `find` over table keys: exact match, subdomain
match, or ccTLD-variant match. -/
def domainMatches (host : List Char) (d : String) : Bool :=
  host == d.data || subdomainMatches host d || cctldMatches host d.data

/-- Model of
`Object.keys(importantParams).find((d) => hostname === d || ...)`: the first
table key, in declaration order, matched by the host. -/
def domainKey (host : List Char) : Option String :=
  domainKeys.find? (fun d => domainMatches host d)

/-- Model of the index access `importantParams[domainKey]`: the parameter
list stored under key `d` (the keys are pairwise distinct, so this is the
unique entry). -/
def lookupTable (d : String) : List String :=
  match importantParams.find? (fun kv => kv.1 == d) with
  | some kv => kv.2
  | none => []

/-- The parameter names of the policy that are present in the query, in
policy order: the `preservedParams` pushes of the source's `forEach` loop. -/
def keptParams (q : List (List Char × List Char)) (ps : List String) : List String :=
  ps.filter (fun p => hasParam q p)

/-- The query pairs the source's loop `set`s on the fresh URL: each kept
name bound to the single value `searchParams.get` exposes. -/
def keptQuery (q : List (List Char × List Char)) (ps : List String) :
    List (List Char × List Char) :=
  (keptParams q ps).map (fun p => (p.data, getParam q p))

/-- The result record of `cleanUrl`. -/
structure CleanResult where
  url : String
  preservedParams : List String
deriving DecidableEq

/-- Model of `cleanUrl` from src/src/App.tsx: parse; on failure echo the
input with no preserved parameters; otherwise find the first matching table
key; if one matches, rebuild from origin and pathname, re-adding the policy
parameters present in the input (first value wins, policy order) and the
nonempty fragment; if none matches, keep only origin, pathname and fragment. -/
def cleanUrl (raw : String) : CleanResult :=
  match parseUrl raw.data with
  | none => ⟨raw, []⟩
  | some u =>
    match domainKey u.host with
    | some d =>
      ⟨⟨originStr u ++ u.path ++ queryStr (keptQuery u.query (lookupTable d)) ++ hashStr u⟩,
        keptParams u.query (lookupTable d)⟩
    | none => ⟨⟨originStr u ++ u.path ++ hashStr u⟩, []⟩

/-- Model of `isValidUrl`: true exactly when the constructor does not throw. -/
def isValidUrl (s : String) : Bool :=
  (parseUrl s.data).isSome

/-- Shape of a host whose tail is `"." ++ d` possibly followed by a ccTLD
tail: the common consequence of all three match modes of any key that itself
has `d` as a dotted suffix. -/
def dotTail (d : String) (host : List Char) : Prop :=
  ('.' :: d.data) <:+ host ∨
    ∃ t, (t.length = 2 ∨ t.length = 3) ∧ (∀ c ∈ t, isLowerAlpha c = true) ∧
      (('.' :: d.data ++ '.' :: t) <:+ host)

/-- Shape of a host matching key `d` by any of the three match modes: the
key itself ends the host, or the key with a dot and a ccTLD tail does. -/
def keyTail (d : String) (host : List Char) : Prop :=
  d.data <:+ host ∨
    ∃ t, (t.length = 2 ∨ t.length = 3) ∧ (∀ c ∈ t, isLowerAlpha c = true) ∧
      (('.' :: d.data ++ '.' :: t) <:+ host)

theorem char_ne_of_pred {p : Char → Bool} {c d : Char} (h : p c = true) (hd : p d = false) :
    c ≠ d := by
  intro e
  rw [e, hd] at h
  exact Bool.false_ne_true h

theorem splitAtFirst_append (p : Char → Bool) (a b : List Char)
    (ha : ∀ c ∈ a, p c = false)
    (hb : ∀ c cs, b = c :: cs → p c = true) :
    splitAtFirst p (a ++ b) = (a, b) := by
  induction a with
  | nil =>
    cases b with
    | nil => rfl
    | cons c cs => simp [splitAtFirst, hb c cs rfl]
  | cons c a ih =>
    have hc : p c = false := ha c (List.mem_cons_self c a)
    have ih2 := ih (fun x hx => ha x (List.mem_cons_of_mem c hx))
    simp [splitAtFirst, hc, ih2]

theorem splitAtFirst_eq_append (p : Char → Bool) (l : List Char) :
    (splitAtFirst p l).1 ++ (splitAtFirst p l).2 = l := by
  induction l with
  | nil => rfl
  | cons c cs ih =>
    cases hc : p c with
    | true => simp [splitAtFirst, hc]
    | false => simp [splitAtFirst, hc, ih]

theorem splitAtFirst_fst_spec (p : Char → Bool) (l : List Char) :
    ∀ c ∈ (splitAtFirst p l).1, p c = false := by
  induction l with
  | nil => simp [splitAtFirst]
  | cons c cs ih =>
    cases hc : p c with
    | true => simp [splitAtFirst, hc]
    | false =>
      intro x hx
      simp only [splitAtFirst, hc] at hx
      simp at hx
      rcases hx with hx | hx
      · rw [hx]; exact hc
      · exact ih x hx

theorem splitAtFirst_snd_spec (p : Char → Bool) (l : List Char) :
    ∀ c cs, (splitAtFirst p l).2 = c :: cs → p c = true := by
  induction l with
  | nil =>
    intro c cs h
    exact absurd h (by simp [splitAtFirst])
  | cons a l ih =>
    intro c cs h
    cases ha : p a with
    | true =>
      simp [splitAtFirst, ha] at h
      rw [← h.1]
      exact ha
    | false =>
      simp [splitAtFirst, ha] at h
      exact ih c cs h

theorem splitSegs_ne_nil (l : List Char) : splitSegs l ≠ [] := by
  cases l with
  | nil => simp [splitSegs]
  | cons c cs =>
    by_cases hc : c = '&' <;> simp [splitSegs, hc]

theorem splitSegs_free (s : List Char) (h : ∀ c ∈ s, c ≠ '&') : splitSegs s = [s] := by
  induction s with
  | nil => rfl
  | cons c cs ih =>
    have hc : ¬(c = '&') := h c (List.mem_cons_self c cs)
    have ih2 := ih (fun x hx => h x (List.mem_cons_of_mem c hx))
    simp [splitSegs, hc, ih2]

theorem splitSegs_append_amp (s r : List Char) (h : ∀ c ∈ s, c ≠ '&') :
    splitSegs (s ++ '&' :: r) = s :: splitSegs r := by
  induction s with
  | nil => simp [splitSegs]
  | cons c cs ih =>
    have hc : ¬(c = '&') := h c (List.mem_cons_self c cs)
    have ih2 := ih (fun x hx => h x (List.mem_cons_of_mem c hx))
    simp [splitSegs, hc, ih2]

theorem splitSegs_mem (l : List Char) (s : List Char) (hs : s ∈ splitSegs l) :
    ∀ c ∈ s, c ∈ l ∧ c ≠ '&' := by
  induction l generalizing s with
  | nil =>
    simp [splitSegs] at hs
    subst hs
    simp
  | cons a l ih =>
    by_cases ha : a = '&'
    · simp [splitSegs, ha] at hs
      rcases hs with hs | hs
      · subst hs; simp
      · intro c hc
        have h2 := ih s hs c hc
        exact ⟨List.mem_cons_of_mem _ h2.1, h2.2⟩
    · obtain ⟨s0, ss, heq⟩ : ∃ s0 ss, splitSegs l = s0 :: ss := by
        cases hsl : splitSegs l with
        | nil => exact absurd hsl (splitSegs_ne_nil l)
        | cons s0 ss => exact ⟨s0, ss, rfl⟩
      simp [splitSegs, ha, heq] at hs
      rcases hs with hs | hs
      · subst hs
        intro c hc
        rcases List.mem_cons.mp hc with h1 | h1
        · subst h1; exact ⟨List.mem_cons_self _ _, ha⟩
        · have h2 := ih s0 (by rw [heq]; exact List.mem_cons_self _ _) c h1
          exact ⟨List.mem_cons_of_mem _ h2.1, h2.2⟩
      · intro c hc
        have hmem : s ∈ splitSegs l := by rw [heq]; exact List.mem_cons_of_mem _ hs
        have h2 := ih s hmem c hc
        exact ⟨List.mem_cons_of_mem _ h2.1, h2.2⟩

theorem mem_parseQuery (l : List Char) (pr : List Char × List Char) (h : pr ∈ parseQuery l) :
    (∀ c ∈ pr.1, c ∈ l ∧ c ≠ '&' ∧ (c == '=') = false) ∧
      (∀ c ∈ pr.2, c ∈ l ∧ c ≠ '&') := by
  simp only [parseQuery, List.mem_filterMap] at h
  obtain ⟨seg, hseg, hf⟩ := h
  by_cases he : seg.isEmpty
  · simp [he] at hf
  · simp only [he, if_neg, Bool.false_eq_true, ite_false] at hf
    have hsub := splitSegs_mem l seg hseg
    have heqs := splitAtFirst_eq_append (fun c => c == '=') seg
    obtain rfl := Option.some.inj hf
    simp only [parseSeg]
    constructor
    · intro c hc
      have h1 : (c == '=') = false := splitAtFirst_fst_spec _ seg c hc
      have h2 : c ∈ seg := by
        rw [← heqs]
        exact List.mem_append_left _ hc
      exact ⟨(hsub c h2).1, (hsub c h2).2, h1⟩
    · intro c hc
      have h3 : c ∈ (splitAtFirst (fun c => c == '=') seg).2 :=
        List.drop_subset _ _ hc
      have h2 : c ∈ seg := by
        rw [← heqs]
        exact List.mem_append_right _ h3
      exact ⟨(hsub c h2).1, (hsub c h2).2⟩

theorem parseSeg_eq (n v : List Char) (hn : ∀ c ∈ n, (c == '=') = false) :
    parseSeg (n ++ '=' :: v) = (n, v) := by
  have hsplit : splitAtFirst (fun c => c == '=') (n ++ '=' :: v) = (n, '=' :: v) :=
    splitAtFirst_append _ n ('=' :: v) hn
      (fun c cs hcs => by
        injection hcs with h1 h2
        rw [← h1]
        rfl)
  simp [parseSeg, hsplit]

theorem parseQuery_serializeQuery (pairs : List (List Char × List Char))
    (h : ∀ pr ∈ pairs, (∀ c ∈ pr.1, c ≠ '&' ∧ (c == '=') = false) ∧ (∀ c ∈ pr.2, c ≠ '&')) :
    parseQuery (serializeQuery pairs) = pairs := by
  induction pairs with
  | nil => rfl
  | cons pr rest ih =>
    obtain ⟨n, v⟩ := pr
    have hn : ∀ c ∈ n, c ≠ '&' ∧ (c == '=') = false := (h (n, v) (by simp)).1
    have hv : ∀ c ∈ v, c ≠ '&' := (h (n, v) (by simp)).2
    have hseg : ∀ c ∈ n ++ '=' :: v, c ≠ '&' := by
      intro c hc
      rcases List.mem_append.mp hc with h1 | h1
      · exact (hn c h1).1
      · rcases List.mem_cons.mp h1 with h2 | h2
        · subst h2; decide
        · exact hv c h2
    have hne : (n ++ '=' :: v).isEmpty = false := by
      cases n <;> rfl
    have hps := parseSeg_eq n v (fun c hc => (hn c hc).2)
    cases rest with
    | nil =>
      show parseQuery (joinAmp [n ++ '=' :: v]) = [(n, v)]
      rw [show joinAmp [n ++ '=' :: v] = n ++ '=' :: v from rfl]
      rw [parseQuery, splitSegs_free _ hseg]
      simp [hne, hps]
    | cons pr2 rest2 =>
      have ih2 := ih (fun x hx => h x (List.mem_cons_of_mem _ hx))
      show parseQuery ((n ++ '=' :: v) ++ '&' :: serializeQuery (pr2 :: rest2)) =
        (n, v) :: pr2 :: rest2
      rw [parseQuery, splitSegs_append_amp _ _ hseg, List.filterMap_cons]
      simp only [hne, Bool.false_eq_true, ite_false]
      rw [hps]
      show ((n, v) :: parseQuery (serializeQuery (pr2 :: rest2))) = (n, v) :: pr2 :: rest2
      rw [ih2]

theorem suffix_append_same {a b t : List Char} (h : a <:+ b) : a ++ t <:+ b ++ t := by
  obtain ⟨u, hu⟩ := h
  exact ⟨u, by rw [← hu, List.append_assoc]⟩

theorem suffix_rev_get {A h : List Char} (hs : A <:+ h) {i : Nat} (hi : i < A.length) :
    h.reverse.get? i = A.reverse.get? i := by
  have hp : A.reverse <+: h.reverse := by
    rw [List.reverse_prefix]
    exact hs
  obtain ⟨t, ht⟩ := hp
  rw [← ht]
  exact List.get?_append (by simpa using hi)

theorem suffix_get_eq {A B h : List Char} (hA : A <:+ h) (hB : B <:+ h) (i : Nat)
    (hiA : i < A.length) (hiB : i < B.length) :
    A.reverse.get? i = B.reverse.get? i := by
  rw [← suffix_rev_get hA hiA, ← suffix_rev_get hB hiB]

theorem append_dot_cons (a t : List Char) : (a ++ ['.']) ++ t = a ++ '.' :: t := by
  simp

theorem cctldMatches_iff (host d : List Char) :
    cctldMatches host d = true ↔
      ∃ t, (t.length = 2 ∨ t.length = 3) ∧ (∀ c ∈ t, isLowerAlpha c = true) ∧
        (('.' :: d ++ '.' :: t) <:+ host) := by
  constructor
  · intro h
    rcases Bool.or_eq_true_iff.mp h with h2 | h2
    · simp only [tldSuffixCheck, Bool.and_eq_true, beq_iff_eq, List.all_eq_true,
        List.isSuffixOf_iff_suffix] at h2
      exact ⟨lastN 2 host, Or.inl h2.1.1, h2.1.2, h2.2⟩
    · simp only [tldSuffixCheck, Bool.and_eq_true, beq_iff_eq, List.all_eq_true,
        List.isSuffixOf_iff_suffix] at h2
      exact ⟨lastN 3 host, Or.inr h2.1.1, h2.1.2, h2.2⟩
  · rintro ⟨t, hlen, hlow, hsuf⟩
    obtain ⟨pre, hpre⟩ := hsuf
    have hstruct : (pre ++ ('.' :: d ++ ['.'])) ++ t = host := by
      rw [← hpre]
      simp
    have hlast : lastN t.length host = t := by
      rw [← hstruct, lastN]
      rw [List.length_append, Nat.add_sub_cancel]
      exact List.drop_left _ _
    rcases hlen with h2 | h3
    · apply Bool.or_eq_true_iff.mpr
      left
      rw [← h2]
      simp only [tldSuffixCheck, hlast, Bool.and_eq_true, beq_iff_eq, List.all_eq_true,
        List.isSuffixOf_iff_suffix]
      exact ⟨⟨trivial, hlow⟩, pre, hpre⟩
    · apply Bool.or_eq_true_iff.mpr
      right
      rw [← h3]
      simp only [tldSuffixCheck, hlast, Bool.and_eq_true, beq_iff_eq, List.all_eq_true,
        List.isSuffixOf_iff_suffix]
      exact ⟨⟨trivial, hlow⟩, pre, hpre⟩

theorem find?_eq_some_split {α : Type} (p : α → Bool) (l : List α) (a : α)
    (h : l.find? p = some a) :
    p a = true ∧ ∃ pre post, l = pre ++ a :: post ∧ ∀ x ∈ pre, p x = false := by
  induction l with
  | nil => simp [List.find?] at h
  | cons b l ih =>
    cases hb : p b with
    | true =>
      rw [List.find?_cons_of_pos _ hb] at h
      obtain rfl := Option.some.inj h
      exact ⟨hb, [], l, rfl, by simp⟩
    | false =>
      rw [List.find?_cons_of_neg _ (by simp [hb])] at h
      obtain ⟨hp, pre, post, heq, hpre⟩ := ih h
      refine ⟨hp, b :: pre, post, by rw [heq]; rfl, ?_⟩
      intro x hx
      rcases List.mem_cons.mp hx with h1 | h1
      · rw [h1]; exact hb
      · exact hpre x h1

theorem list_len2 {t : List Char} (h : t.length = 2) : ∃ a b, t = [a, b] := by
  cases t with
  | nil => simp at h
  | cons a t =>
    cases t with
    | nil => simp at h
    | cons b t =>
      cases t with
      | nil => exact ⟨a, b, rfl⟩
      | cons c t => simp at h

theorem list_len3 {t : List Char} (h : t.length = 3) : ∃ a b c, t = [a, b, c] := by
  cases t with
  | nil => simp at h
  | cons a t =>
    cases t with
    | nil => simp at h
    | cons b t =>
      cases t with
      | nil => simp at h
      | cons c t =>
        cases t with
        | nil => exact ⟨a, b, c, rfl⟩
        | cons d t => simp at h

theorem domainMatches_keyTail (host : List Char) (d : String)
    (h : domainMatches host d = true) : keyTail d host := by
  simp only [domainMatches, Bool.or_eq_true] at h
  rcases h with (h | h) | h
  · left
    have he : host = d.data := by simpa using h
    rw [he]
  · left
    have hsub : ('.' :: d.data) <:+ host := by
      simpa [subdomainMatches, List.isSuffixOf_iff_suffix] using h
    exact (List.suffix_cons '.' d.data).trans hsub
  · right
    exact (cctldMatches_iff host d.data).mp h

theorem matches_dotTail_of_key (host : List Char) (X : String)
    (hx : ('.' :: "google.com".data) <:+ X.data)
    (h : domainMatches host X = true) : dotTail "google.com" host := by
  simp only [domainMatches, Bool.or_eq_true] at h
  rcases h with (h | h) | h
  · left
    have he : host = X.data := by simpa using h
    rw [he]
    exact hx
  · left
    have hsub : ('.' :: X.data) <:+ host := by
      simpa [subdomainMatches, List.isSuffixOf_iff_suffix] using h
    exact (hx.trans (List.suffix_cons '.' X.data)).trans hsub
  · obtain ⟨t, hlen, hlow, hsuf⟩ := (cctldMatches_iff host _).mp h
    right
    refine ⟨t, hlen, hlow, ?_⟩
    have hx2 : ('.' :: "google.com".data ++ ['.']) <:+ ('.' :: X.data ++ ['.']) :=
      (suffix_append_same hx).trans (List.suffix_cons '.' (X.data ++ ['.']))
    have h1 := suffix_append_same (t := t) hx2
    rw [append_dot_cons, append_dot_cons] at h1
    exact h1.trans hsuf

theorem dotTail_matches_google (host : List Char) (h : dotTail "google.com" host) :
    domainMatches host "google.com" = true := by
  simp only [domainMatches, Bool.or_eq_true]
  rcases h with h | ⟨t, hlen, hlow, hsuf⟩
  · left
    right
    simpa [subdomainMatches, List.isSuffixOf_iff_suffix] using h
  · right
    exact (cctldMatches_iff host "google.com".data).mpr ⟨t, hlen, hlow, hsuf⟩

theorem domainMatches_false_of (host : List Char) (d : String)
    (h : domainMatches host d = true → False) : domainMatches host d = false := by
  cases hm : domainMatches host d
  · rfl
  · exact absurd hm h

theorem dotTail_noMatch_youtube (host : List Char) (hP : dotTail "google.com" host) :
    domainMatches host "youtube.com" = false := by
  apply domainMatches_false_of
  intro hm
  have hQ := domainMatches_keyTail host "youtube.com" hm
  rcases hP with hP | ⟨t, hlenP, hlowP, hP⟩
  · rcases hQ with hQ | ⟨s, hlenQ, hlowQ, hQ⟩
    · exact absurd (suffix_get_eq hP hQ 5 (by decide : (5:Nat) < 11) (by decide : (5:Nat) < 11))
        (by decide : ((some 'l' : Option Char) = some 'b') → False)
    · rcases hlenQ with k2 | k3
      · obtain ⟨a2, b2, rfl⟩ := list_len2 k2
        exact absurd (suffix_get_eq hP hQ 8 (by decide : (8:Nat) < 11) (by decide : (8:Nat) < 15))
          (by decide : ((some 'o' : Option Char) = some 'b') → False)
      · obtain ⟨a2, b2, c2, rfl⟩ := list_len3 k3
        exact absurd (suffix_get_eq hP hQ 4 (by decide : (4:Nat) < 11) (by decide : (4:Nat) < 16))
          (by decide : ((some 'e' : Option Char) = some 'm') → False)
  · rcases hlenP with h2 | h3
    · obtain ⟨a, b, rfl⟩ := list_len2 h2
      rcases hQ with hQ | ⟨s, hlenQ, hlowQ, hQ⟩
      · exact absurd (suffix_get_eq hP hQ 2 (by decide : (2:Nat) < 14) (by decide : (2:Nat) < 11))
          (by decide : ((some '.' : Option Char) = some 'c') → False)
      · rcases hlenQ with k2 | k3
        · obtain ⟨a2, b2, rfl⟩ := list_len2 k2
          exact absurd (suffix_get_eq hP hQ 8 (by decide : (8:Nat) < 14) (by decide : (8:Nat) < 15))
            (by decide : ((some 'l' : Option Char) = some 'b') → False)
        · obtain ⟨a2, b2, c2, rfl⟩ := list_len3 k3
          exact absurd (suffix_get_eq hP hQ 3 (by decide : (3:Nat) < 14) (by decide : (3:Nat) < 16))
            (by decide : ((some 'm' : Option Char) = some '.') → False)
    · obtain ⟨a, b, c, rfl⟩ := list_len3 h3
      rcases hQ with hQ | ⟨s, hlenQ, hlowQ, hQ⟩
      · exact absurd (suffix_get_eq hP hQ 4 (by decide : (4:Nat) < 15) (by decide : (4:Nat) < 11))
          (by decide : ((some 'm' : Option Char) = some 'e') → False)
      · rcases hlenQ with k2 | k3
        · obtain ⟨a2, b2, rfl⟩ := list_len2 k2
          have hc := suffix_get_eq hP hQ 2 (by decide : (2:Nat) < 15) (by decide : (2:Nat) < 15)
          have ha : a = '.' := Option.some.inj hc
          have hla := hlowP a (by simp)
          rw [ha] at hla
          exact absurd hla (by decide)
        · obtain ⟨a2, b2, c2, rfl⟩ := list_len3 k3
          exact absurd (suffix_get_eq hP hQ 9 (by decide : (9:Nat) < 15) (by decide : (9:Nat) < 16))
            (by decide : ((some 'l' : Option Char) = some 'b') → False)

theorem dotTail_noMatch_youtube_be (host : List Char) (hP : dotTail "google.com" host) :
    domainMatches host "youtu.be" = false := by
  apply domainMatches_false_of
  intro hm
  have hQ := domainMatches_keyTail host "youtu.be" hm
  rcases hP with hP | ⟨t, hlenP, hlowP, hP⟩
  · rcases hQ with hQ | ⟨s, hlenQ, hlowQ, hQ⟩
    · exact absurd (suffix_get_eq hP hQ 0 (by decide : (0:Nat) < 11) (by decide : (0:Nat) < 8))
        (by decide : ((some 'm' : Option Char) = some 'e') → False)
    · rcases hlenQ with k2 | k3
      · obtain ⟨a2, b2, rfl⟩ := list_len2 k2
        exact absurd (suffix_get_eq hP hQ 2 (by decide : (2:Nat) < 11) (by decide : (2:Nat) < 12))
          (by decide : ((some 'c' : Option Char) = some '.') → False)
      · obtain ⟨a2, b2, c2, rfl⟩ := list_len3 k3
        exact absurd (suffix_get_eq hP hQ 5 (by decide : (5:Nat) < 11) (by decide : (5:Nat) < 13))
          (by decide : ((some 'l' : Option Char) = some 'b') → False)
  · rcases hlenP with h2 | h3
    · obtain ⟨a, b, rfl⟩ := list_len2 h2
      rcases hQ with hQ | ⟨s, hlenQ, hlowQ, hQ⟩
      · exact absurd (suffix_get_eq hP hQ 3 (by decide : (3:Nat) < 14) (by decide : (3:Nat) < 8))
          (by decide : ((some 'm' : Option Char) = some 'u') → False)
      · rcases hlenQ with k2 | k3
        · obtain ⟨a2, b2, rfl⟩ := list_len2 k2
          exact absurd (suffix_get_eq hP hQ 3 (by decide : (3:Nat) < 14) (by decide : (3:Nat) < 12))
            (by decide : ((some 'm' : Option Char) = some 'e') → False)
        · obtain ⟨a2, b2, c2, rfl⟩ := list_len3 k3
          have hc := suffix_get_eq hP hQ 2 (by decide : (2:Nat) < 14) (by decide : (2:Nat) < 13)
          have ha : '.' = a2 := Option.some.inj hc
          have hla := hlowQ a2 (by simp)
          rw [← ha] at hla
          exact absurd hla (by decide)
    · obtain ⟨a, b, c, rfl⟩ := list_len3 h3
      rcases hQ with hQ | ⟨s, hlenQ, hlowQ, hQ⟩
      · have hc := suffix_get_eq hP hQ 2 (by decide : (2:Nat) < 15) (by decide : (2:Nat) < 8)
        have ha : a = '.' := Option.some.inj hc
        have hla := hlowP a (by simp)
        rw [ha] at hla
        exact absurd hla (by decide)
      · rcases hlenQ with k2 | k3
        · obtain ⟨a2, b2, rfl⟩ := list_len2 k2
          exact absurd (suffix_get_eq hP hQ 3 (by decide : (3:Nat) < 15) (by decide : (3:Nat) < 12))
            (by decide : ((some '.' : Option Char) = some 'e') → False)
        · obtain ⟨a2, b2, c2, rfl⟩ := list_len3 k3
          exact absurd (suffix_get_eq hP hQ 4 (by decide : (4:Nat) < 15) (by decide : (4:Nat) < 13))
            (by decide : ((some 'm' : Option Char) = some 'e') → False)

theorem dotTail_noMatch_vimeo (host : List Char) (hP : dotTail "google.com" host) :
    domainMatches host "vimeo.com" = false := by
  apply domainMatches_false_of
  intro hm
  have hQ := domainMatches_keyTail host "vimeo.com" hm
  rcases hP with hP | ⟨t, hlenP, hlowP, hP⟩
  · rcases hQ with hQ | ⟨s, hlenQ, hlowQ, hQ⟩
    · exact absurd (suffix_get_eq hP hQ 4 (by decide : (4:Nat) < 11) (by decide : (4:Nat) < 9))
        (by decide : ((some 'e' : Option Char) = some 'o') → False)
    · rcases hlenQ with k2 | k3
      · obtain ⟨a2, b2, rfl⟩ := list_len2 k2
        exact absurd (suffix_get_eq hP hQ 8 (by decide : (8:Nat) < 11) (by decide : (8:Nat) < 13))
          (by decide : ((some 'o' : Option Char) = some 'e') → False)
      · obtain ⟨a2, b2, c2, rfl⟩ := list_len3 k3
        exact absurd (suffix_get_eq hP hQ 4 (by decide : (4:Nat) < 11) (by decide : (4:Nat) < 14))
          (by decide : ((some 'e' : Option Char) = some 'm') → False)
  · rcases hlenP with h2 | h3
    · obtain ⟨a, b, rfl⟩ := list_len2 h2
      rcases hQ with hQ | ⟨s, hlenQ, hlowQ, hQ⟩
      · exact absurd (suffix_get_eq hP hQ 2 (by decide : (2:Nat) < 14) (by decide : (2:Nat) < 9))
          (by decide : ((some '.' : Option Char) = some 'c') → False)
      · rcases hlenQ with k2 | k3
        · obtain ⟨a2, b2, rfl⟩ := list_len2 k2
          exact absurd (suffix_get_eq hP hQ 7 (by decide : (7:Nat) < 14) (by decide : (7:Nat) < 13))
            (by decide : ((some 'e' : Option Char) = some 'o') → False)
        · obtain ⟨a2, b2, c2, rfl⟩ := list_len3 k3
          exact absurd (suffix_get_eq hP hQ 3 (by decide : (3:Nat) < 14) (by decide : (3:Nat) < 14))
            (by decide : ((some 'm' : Option Char) = some '.') → False)
    · obtain ⟨a, b, c, rfl⟩ := list_len3 h3
      rcases hQ with hQ | ⟨s, hlenQ, hlowQ, hQ⟩
      · exact absurd (suffix_get_eq hP hQ 4 (by decide : (4:Nat) < 15) (by decide : (4:Nat) < 9))
          (by decide : ((some 'm' : Option Char) = some 'o') → False)
      · rcases hlenQ with k2 | k3
        · obtain ⟨a2, b2, rfl⟩ := list_len2 k2
          have hc := suffix_get_eq hP hQ 2 (by decide : (2:Nat) < 15) (by decide : (2:Nat) < 13)
          have ha : a = '.' := Option.some.inj hc
          have hla := hlowP a (by simp)
          rw [ha] at hla
          exact absurd hla (by decide)
        · obtain ⟨a2, b2, c2, rfl⟩ := list_len3 k3
          exact absurd (suffix_get_eq hP hQ 8 (by decide : (8:Nat) < 15) (by decide : (8:Nat) < 14))
            (by decide : ((some 'e' : Option Char) = some 'o') → False)

theorem dotTail_noMatch_twitch (host : List Char) (hP : dotTail "google.com" host) :
    domainMatches host "twitch.tv" = false := by
  apply domainMatches_false_of
  intro hm
  have hQ := domainMatches_keyTail host "twitch.tv" hm
  rcases hP with hP | ⟨t, hlenP, hlowP, hP⟩
  · rcases hQ with hQ | ⟨s, hlenQ, hlowQ, hQ⟩
    · exact absurd (suffix_get_eq hP hQ 0 (by decide : (0:Nat) < 11) (by decide : (0:Nat) < 9))
        (by decide : ((some 'm' : Option Char) = some 'v') → False)
    · rcases hlenQ with k2 | k3
      · obtain ⟨a2, b2, rfl⟩ := list_len2 k2
        exact absurd (suffix_get_eq hP hQ 2 (by decide : (2:Nat) < 11) (by decide : (2:Nat) < 13))
          (by decide : ((some 'c' : Option Char) = some '.') → False)
      · obtain ⟨a2, b2, c2, rfl⟩ := list_len3 k3
        exact absurd (suffix_get_eq hP hQ 4 (by decide : (4:Nat) < 11) (by decide : (4:Nat) < 14))
          (by decide : ((some 'e' : Option Char) = some 'v') → False)
  · rcases hlenP with h2 | h3
    · obtain ⟨a, b, rfl⟩ := list_len2 h2
      rcases hQ with hQ | ⟨s, hlenQ, hlowQ, hQ⟩
      · exact absurd (suffix_get_eq hP hQ 3 (by decide : (3:Nat) < 14) (by decide : (3:Nat) < 9))
          (by decide : ((some 'm' : Option Char) = some 'h') → False)
      · rcases hlenQ with k2 | k3
        · obtain ⟨a2, b2, rfl⟩ := list_len2 k2
          exact absurd (suffix_get_eq hP hQ 3 (by decide : (3:Nat) < 14) (by decide : (3:Nat) < 13))
            (by decide : ((some 'm' : Option Char) = some 'v') → False)
        · obtain ⟨a2, b2, c2, rfl⟩ := list_len3 k3
          have hc := suffix_get_eq hP hQ 2 (by decide : (2:Nat) < 14) (by decide : (2:Nat) < 14)
          have ha : '.' = a2 := Option.some.inj hc
          have hla := hlowQ a2 (by simp)
          rw [← ha] at hla
          exact absurd hla (by decide)
    · obtain ⟨a, b, c, rfl⟩ := list_len3 h3
      rcases hQ with hQ | ⟨s, hlenQ, hlowQ, hQ⟩
      · have hc := suffix_get_eq hP hQ 2 (by decide : (2:Nat) < 15) (by decide : (2:Nat) < 9)
        have ha : a = '.' := Option.some.inj hc
        have hla := hlowP a (by simp)
        rw [ha] at hla
        exact absurd hla (by decide)
      · rcases hlenQ with k2 | k3
        · obtain ⟨a2, b2, rfl⟩ := list_len2 k2
          exact absurd (suffix_get_eq hP hQ 3 (by decide : (3:Nat) < 15) (by decide : (3:Nat) < 13))
            (by decide : ((some '.' : Option Char) = some 'v') → False)
        · obtain ⟨a2, b2, c2, rfl⟩ := list_len3 k3
          exact absurd (suffix_get_eq hP hQ 4 (by decide : (4:Nat) < 15) (by decide : (4:Nat) < 14))
            (by decide : ((some 'm' : Option Char) = some 'v') → False)

theorem dotTail_noMatch_dailymotion (host : List Char) (hP : dotTail "google.com" host) :
    domainMatches host "dailymotion.com" = false := by
  apply domainMatches_false_of
  intro hm
  have hQ := domainMatches_keyTail host "dailymotion.com" hm
  rcases hP with hP | ⟨t, hlenP, hlowP, hP⟩
  · rcases hQ with hQ | ⟨s, hlenQ, hlowQ, hQ⟩
    · exact absurd (suffix_get_eq hP hQ 4 (by decide : (4:Nat) < 11) (by decide : (4:Nat) < 15))
        (by decide : ((some 'e' : Option Char) = some 'n') → False)
    · rcases hlenQ with k2 | k3
      · obtain ⟨a2, b2, rfl⟩ := list_len2 k2
        exact absurd (suffix_get_eq hP hQ 7 (by decide : (7:Nat) < 11) (by decide : (7:Nat) < 19))
          (by decide : ((some 'o' : Option Char) = some 'n') → False)
      · obtain ⟨a2, b2, c2, rfl⟩ := list_len3 k3
        exact absurd (suffix_get_eq hP hQ 4 (by decide : (4:Nat) < 11) (by decide : (4:Nat) < 20))
          (by decide : ((some 'e' : Option Char) = some 'm') → False)
  · rcases hlenP with h2 | h3
    · obtain ⟨a, b, rfl⟩ := list_len2 h2
      rcases hQ with hQ | ⟨s, hlenQ, hlowQ, hQ⟩
      · exact absurd (suffix_get_eq hP hQ 2 (by decide : (2:Nat) < 14) (by decide : (2:Nat) < 15))
          (by decide : ((some '.' : Option Char) = some 'c') → False)
      · rcases hlenQ with k2 | k3
        · obtain ⟨a2, b2, rfl⟩ := list_len2 k2
          exact absurd (suffix_get_eq hP hQ 7 (by decide : (7:Nat) < 14) (by decide : (7:Nat) < 19))
            (by decide : ((some 'e' : Option Char) = some 'n') → False)
        · obtain ⟨a2, b2, c2, rfl⟩ := list_len3 k3
          exact absurd (suffix_get_eq hP hQ 3 (by decide : (3:Nat) < 14) (by decide : (3:Nat) < 20))
            (by decide : ((some 'm' : Option Char) = some '.') → False)
    · obtain ⟨a, b, c, rfl⟩ := list_len3 h3
      rcases hQ with hQ | ⟨s, hlenQ, hlowQ, hQ⟩
      · exact absurd (suffix_get_eq hP hQ 4 (by decide : (4:Nat) < 15) (by decide : (4:Nat) < 15))
          (by decide : ((some 'm' : Option Char) = some 'n') → False)
      · rcases hlenQ with k2 | k3
        · obtain ⟨a2, b2, rfl⟩ := list_len2 k2
          have hc := suffix_get_eq hP hQ 2 (by decide : (2:Nat) < 15) (by decide : (2:Nat) < 19)
          have ha : a = '.' := Option.some.inj hc
          have hla := hlowP a (by simp)
          rw [ha] at hla
          exact absurd hla (by decide)
        · obtain ⟨a2, b2, c2, rfl⟩ := list_len3 k3
          exact absurd (suffix_get_eq hP hQ 8 (by decide : (8:Nat) < 15) (by decide : (8:Nat) < 20))
            (by decide : ((some 'e' : Option Char) = some 'n') → False)

theorem dotTail_domainKey (host : List Char) (hP : dotTail "google.com" host) :
    domainKey host = some "google.com" := by
  have h1 := dotTail_noMatch_youtube host hP
  have h2 := dotTail_noMatch_youtube_be host hP
  have h3 := dotTail_noMatch_vimeo host hP
  have h4 := dotTail_noMatch_twitch host hP
  have h5 := dotTail_noMatch_dailymotion host hP
  have hg := dotTail_matches_google host hP
  unfold domainKey domainKeys importantParams
  simp only [List.map_cons, List.map_nil]
  rw [List.find?_cons_of_neg _ (by simp [h1]), List.find?_cons_of_neg _ (by simp [h2]),
    List.find?_cons_of_neg _ (by simp [h3]), List.find?_cons_of_neg _ (by simp [h4]),
    List.find?_cons_of_neg _ (by simp [h5]), List.find?_cons_of_pos _ hg]

theorem parseAuthority_wf {auth : List Char} {hp : List Char × Option (List Char)}
    (h : parseAuthority auth = some hp) :
    hp.1 ≠ [] ∧ (∀ c ∈ hp.1, c ∈ auth ∧ (c == ':') = false) ∧
    auth.any isHostForbidden = false ∧
    (∀ p, hp.2 = some p → p ≠ [] ∧ p.all Char.isDigit = true) := by
  have hmemf : ∀ c ∈ (splitAtFirst (fun c => c == ':') auth).1, c ∈ auth := by
    intro c hc
    rw [← splitAtFirst_eq_append (fun c => c == ':') auth]
    exact List.mem_append_left _ hc
  rw [parseAuthority] at h
  split at h
  · exact absurd h (by simp)
  · split at h
    · exact absurd h (by simp)
    · split at h
      · exact absurd h (by simp)
      · rename_i hne hforb hfst
        split at h
        · obtain rfl := Option.some.inj h
          refine ⟨by simpa using hfst, ?_, by simpa using hforb, by simp⟩
          intro c hc
          exact ⟨hmemf c hc, splitAtFirst_fst_spec _ auth c hc⟩
        · rename_i pcs heq
          split at h
          · obtain rfl := Option.some.inj h
            refine ⟨by simpa using hfst, ?_, by simpa using hforb, by simp⟩
            intro c hc
            exact ⟨hmemf c hc, splitAtFirst_fst_spec _ auth c hc⟩
          · split at h
            · obtain rfl := Option.some.inj h
              refine ⟨by simpa using hfst, ?_, by simpa using hforb, ?_⟩
              · intro c hc
                exact ⟨hmemf c hc, splitAtFirst_fst_spec _ auth c hc⟩
              · intro p hpp
                obtain rfl := Option.some.inj hpp
                rename_i hpcs hdig
                exact ⟨by simpa using hpcs, hdig⟩
            · exact absurd h (by simp)
        · exact absurd h (by simp)

theorem parseAfterAuthority_fst (r : List Char) : (parseAfterAuthority r).1 = pathOf r := by
  unfold parseAfterAuthority
  split
  · split <;> rfl
  · rfl
  · rfl

theorem pathOf_spec (r : List Char)
    (hhead : ∀ c cs, r = c :: cs → isAuthorityEnd c = true) :
    pathOf r ≠ [] ∧ (pathOf r).head? = some '/' ∧
    (∀ c ∈ pathOf r, (c == '?') = false ∧ (c == '#') = false) := by
  have hchars : ∀ c ∈ (splitAtFirst (fun c => c == '?' || c == '#') r).1,
      (c == '?') = false ∧ (c == '#') = false := by
    intro c hc
    have hor := splitAtFirst_fst_spec _ r c hc
    constructor
    · cases hq : c == '?'
      · rfl
      · rw [hq] at hor
        simp at hor
    · cases hq : c == '#'
      · rfl
      · rw [hq] at hor
        simp at hor
  unfold pathOf
  split
  · refine ⟨by simp, rfl, ?_⟩
    intro c hc
    simp at hc
    subst hc
    exact ⟨by decide, by decide⟩
  · rename_i hne
    obtain ⟨c, cs, hfst⟩ : ∃ c cs, (splitAtFirst (fun c => c == '?' || c == '#') r).1 = c :: cs := by
      cases hf : (splitAtFirst (fun c => c == '?' || c == '#') r).1 with
      | nil =>
        rw [hf] at hne
        simp at hne
      | cons x xs => exact ⟨x, xs, rfl⟩
    have hr : r = c :: (cs ++ (splitAtFirst (fun c => c == '?' || c == '#') r).2) := by
      conv_lhs => rw [← splitAtFirst_eq_append (fun c => c == '?' || c == '#') r]
      rw [hfst]
      rfl
    have hae := hhead c _ hr
    have hcc := hchars c (by rw [hfst]; exact List.mem_cons_self _ _)
    have hslash : c = '/' := by
      simp only [isAuthorityEnd, hcc.1, hcc.2, Bool.or_false] at hae
      simpa using hae
    refine ⟨by rw [hfst]; simp, ?_, hchars⟩
    rw [hfst, hslash]
    rfl

theorem parseAfterAuthority_query (r : List Char) (pr : List Char × List Char)
    (hpr : pr ∈ (parseAfterAuthority r).2.1) :
    (∀ c ∈ pr.1, (c == '&') = false ∧ (c == '=') = false ∧ (c == '#') = false) ∧
    (∀ c ∈ pr.2, (c == '&') = false ∧ (c == '#') = false) := by
  unfold parseAfterAuthority at hpr
  split at hpr
  · rename_i qf heq
    have hhash : ∀ c ∈ (splitAtFirst (fun c => c == '#') qf).1, (c == '#') = false :=
      splitAtFirst_fst_spec _ qf
    split at hpr
    all_goals {
      have hm := mem_parseQuery _ pr hpr
      constructor
      · intro c hc
        have h1 := hm.1 c hc
        exact ⟨beq_eq_false_iff_ne.mpr h1.2.1, h1.2.2, hhash c h1.1⟩
      · intro c hc
        have h1 := hm.2 c hc
        exact ⟨beq_eq_false_iff_ne.mpr h1.2, hhash c h1.1⟩
    }
  · simp at hpr
  · simp at hpr

theorem parseUrl_wf {cs : List Char} {u : ParsedURL} (h : parseUrl cs = some u) :
    schemeOk u.scheme = true ∧ (∀ c ∈ u.scheme, (c == ':') = false) ∧
    u.host ≠ [] ∧
    (∀ c ∈ u.host, isAuthorityEnd c = false ∧ isHostForbidden c = false ∧ (c == ':') = false) ∧
    (∀ p, u.port = some p → p ≠ [] ∧ p.all Char.isDigit = true) ∧
    u.path ≠ [] ∧ u.path.head? = some '/' ∧
    (∀ c ∈ u.path, (c == '?') = false ∧ (c == '#') = false) ∧
    (∀ pr ∈ u.query, (∀ c ∈ pr.1, (c == '&') = false ∧ (c == '=') = false ∧ (c == '#') = false) ∧
      (∀ c ∈ pr.2, (c == '&') = false ∧ (c == '#') = false)) := by
  rw [parseUrl] at h
  split at h
  · rename_i hs
    split at h
    · rename_i rest2 heq
      split at h
      · rename_i hp heq2
        obtain rfl := Option.some.inj h
        have ha := parseAuthority_wf heq2
        have hhead : ∀ c cs2, (splitAtFirst isAuthorityEnd rest2).2 = c :: cs2 →
            isAuthorityEnd c = true :=
          fun c cs2 hc => splitAtFirst_snd_spec _ rest2 c cs2 hc
        have hpath := pathOf_spec (splitAtFirst isAuthorityEnd rest2).2 hhead
        have hfst := parseAfterAuthority_fst (splitAtFirst isAuthorityEnd rest2).2
        refine ⟨hs, splitAtFirst_fst_spec _ cs, ha.1, ?_, ha.2.2.2, ?_, ?_, ?_, ?_⟩
        · intro c hc
          have h1 := ha.2.1 c hc
          refine ⟨splitAtFirst_fst_spec _ rest2 c h1.1, ?_, h1.2⟩
          simpa using List.any_eq_false.mp ha.2.2.1 c h1.1
        · show (parseAfterAuthority (splitAtFirst isAuthorityEnd rest2).2).1 ≠ []
          rw [hfst]
          exact hpath.1
        · show (parseAfterAuthority (splitAtFirst isAuthorityEnd rest2).2).1.head? = some '/'
          rw [hfst]
          exact hpath.2.1
        · show ∀ c ∈ (parseAfterAuthority (splitAtFirst isAuthorityEnd rest2).2).1, _
          rw [hfst]
          exact hpath.2.2
        · exact fun pr hpr => parseAfterAuthority_query _ pr hpr
      · exact absurd h (by simp)
    · exact absurd h (by simp)
  · exact absurd h (by simp)

theorem serializeQuery_chars (pairs : List (List Char × List Char))
    (h : ∀ pr ∈ pairs, (∀ c ∈ pr.1, (c == '#') = false) ∧ (∀ c ∈ pr.2, (c == '#') = false)) :
    ∀ c ∈ serializeQuery pairs, (c == '#') = false := by
  induction pairs with
  | nil => simp [serializeQuery, joinAmp]
  | cons pr rest ih =>
    intro c hc
    cases rest with
    | nil =>
      simp only [serializeQuery, List.map, joinAmp] at hc
      rcases List.mem_append.mp hc with h1 | h1
      · exact (h pr (by simp)).1 c h1
      · rcases List.mem_cons.mp h1 with h2 | h2
        · subst h2; decide
        · exact (h pr (by simp)).2 c h2
    | cons pr2 rest2 =>
      simp only [serializeQuery, List.map, joinAmp] at hc
      rcases List.mem_append.mp hc with h1 | h1
      · rcases List.mem_append.mp h1 with h2 | h2
        · exact (h pr (by simp)).1 c h2
        · rcases List.mem_cons.mp h2 with h3 | h3
          · subst h3; decide
          · exact (h pr (by simp)).2 c h3
      · rcases List.mem_cons.mp h1 with h2 | h2
        · subst h2; decide
        · exact ih (fun x hx => h x (List.mem_cons_of_mem _ hx)) c h2

theorem parseAuthority_serialize (host : List Char) (port : Option (List Char))
    (hh1 : host ≠ [])
    (hh2 : ∀ c ∈ host, isAuthorityEnd c = false ∧ isHostForbidden c = false ∧ (c == ':') = false)
    (hp : ∀ p, port = some p → p ≠ [] ∧ p.all Char.isDigit = true) :
    parseAuthority (host ++ portStr port) = some (host, port) := by
  have hsplit : splitAtFirst (fun c => c == ':') (host ++ portStr port) = (host, portStr port) := by
    apply splitAtFirst_append
    · exact fun c hc => (hh2 c hc).2.2
    · intro c cs hc
      cases hport : port with
      | none =>
        rw [hport] at hc
        simp [portStr] at hc
      | some p =>
        rw [hport] at hc
        simp only [portStr] at hc
        injection hc with h1 _
        rw [← h1]
        rfl
  have hne : (host ++ portStr port).isEmpty = false := by
    cases host with
    | nil => exact absurd rfl hh1
    | cons x xs => rfl
  have hne2 : host.isEmpty = false := by
    cases host with
    | nil => exact absurd rfl hh1
    | cons x xs => rfl
  have hforb : (host ++ portStr port).any isHostForbidden = false := by
    apply List.any_eq_false.mpr
    intro c hc
    rcases List.mem_append.mp hc with h1 | h1
    · simp [(hh2 c h1).2.1]
    · cases hport : port with
      | none =>
        rw [hport] at h1
        simp [portStr] at h1
      | some p =>
        rw [hport] at h1
        simp only [portStr] at h1
        rcases List.mem_cons.mp h1 with h2 | h2
        · subst h2; decide
        · have hd : c.isDigit = true := List.all_eq_true.mp (hp p hport).2 c h2
          have h3 : c ≠ '@' := char_ne_of_pred hd (by decide)
          have h4 : c ≠ '[' := char_ne_of_pred hd (by decide)
          have h5 : c ≠ ']' := char_ne_of_pred hd (by decide)
          have h6 : c ≠ ' ' := char_ne_of_pred hd (by decide)
          simp [isHostForbidden, beq_eq_false_iff_ne.mpr h3, beq_eq_false_iff_ne.mpr h4,
            beq_eq_false_iff_ne.mpr h5, beq_eq_false_iff_ne.mpr h6]
  cases hport : port with
  | none =>
    rw [hport] at hsplit hne hforb
    simp only [portStr, List.append_nil] at hsplit hne hforb
    rw [parseAuthority]
    simp only [portStr, List.append_nil]
    simp [hne, hsplit, hne2]
    intro x hx
    simpa using List.any_eq_false.mp hforb x hx
  | some p =>
    have hpne : ¬(p = []) := (hp p hport).1
    have hpd : p.all Char.isDigit = true := (hp p hport).2
    rw [hport] at hsplit hne hforb
    simp only [portStr] at hsplit hne hforb
    rw [parseAuthority]
    simp only [portStr]
    simp [hne, hsplit, hne2, hpne]
    refine ⟨⟨?_, ?_⟩, List.all_eq_true.mp hpd⟩
    · intro x hx
      simpa using List.any_eq_false.mp hforb x (List.mem_append_left _ hx)
    · refine ⟨by decide, ?_⟩
      intro x hx
      simpa using List.any_eq_false.mp hforb x
        (List.mem_append_right _ (List.mem_cons_of_mem _ hx))

theorem pathOf_eq (r path rest : List Char) (hne : path ≠ [])
    (hsplit : splitAtFirst (fun c => c == '?' || c == '#') r = (path, rest)) :
    pathOf r = path := by
  unfold pathOf
  rw [hsplit]
  cases path with
  | nil => exact absurd rfl hne
  | cons x xs => rfl

theorem parseAfterAuthority_serialize (u : ParsedURL)
    (hpa1 : u.path ≠ [])
    (hpa3 : ∀ c ∈ u.path, (c == '?') = false ∧ (c == '#') = false)
    (hq : ∀ pr ∈ u.query,
      (∀ c ∈ pr.1, (c == '&') = false ∧ (c == '=') = false ∧ (c == '#') = false) ∧
      (∀ c ∈ pr.2, (c == '&') = false ∧ (c == '#') = false))
    (hf : ∀ f, u.fragment = some f → f ≠ []) :
    parseAfterAuthority (u.path ++ (queryStr u.query ++ hashStr u)) =
      (u.path, u.query, u.fragment) := by
  have hpathpred : ∀ c ∈ u.path, (fun c => c == '?' || c == '#') c = false := by
    intro c hc
    simp [(hpa3 c hc).1, (hpa3 c hc).2]
  have hqconds : ∀ pr ∈ u.query,
      (∀ c ∈ pr.1, c ≠ '&' ∧ (c == '=') = false) ∧ (∀ c ∈ pr.2, c ≠ '&') := by
    intro pr hpr
    exact ⟨fun c hc => ⟨beq_eq_false_iff_ne.mp ((hq pr hpr).1 c hc).1, ((hq pr hpr).1 c hc).2.1⟩,
      fun c hc => beq_eq_false_iff_ne.mp ((hq pr hpr).2 c hc).1⟩
  have hsq := parseQuery_serializeQuery u.query hqconds
  have hsqchars : ∀ c ∈ serializeQuery u.query, (c == '#') = false := by
    apply serializeQuery_chars
    intro pr hpr
    exact ⟨fun c hc => ((hq pr hpr).1 c hc).2.2, fun c hc => ((hq pr hpr).2 c hc).2⟩
  cases hfr : u.fragment with
  | none =>
    have hh : hashStr u = [] := by simp [hashStr, hfr]
    rw [hh]
    cases hqe : u.query with
    | nil =>
      show parseAfterAuthority (u.path ++ (([] : List Char) ++ [])) = (u.path, [], none)
      rw [List.nil_append, List.append_nil]
      have hsplit : splitAtFirst (fun c => c == '?' || c == '#') u.path = (u.path, []) := by
        have h2 := splitAtFirst_append _ u.path [] hpathpred (fun c cs h => by simp at h)
        simpa using h2
      unfold parseAfterAuthority
      rw [hsplit]
      simp [pathOf_eq _ u.path [] hpa1 hsplit]
    | cons q0 qrest =>
      rw [hqe] at hsq hsqchars
      show parseAfterAuthority
          (u.path ++ ('?' :: serializeQuery (q0 :: qrest) ++ [])) = (u.path, q0 :: qrest, none)
      rw [List.append_nil]
      have hsplit : splitAtFirst (fun c => c == '?' || c == '#')
          (u.path ++ '?' :: serializeQuery (q0 :: qrest)) =
          (u.path, '?' :: serializeQuery (q0 :: qrest)) :=
        splitAtFirst_append _ _ _ hpathpred
          (fun c cs h => by injection h with h1 _; rw [← h1]; rfl)
      have hinner : splitAtFirst (fun c => c == '#') (serializeQuery (q0 :: qrest)) =
          (serializeQuery (q0 :: qrest), []) := by
        have h2 := splitAtFirst_append _ (serializeQuery (q0 :: qrest)) [] hsqchars
          (fun c cs h => by simp at h)
        simpa using h2
      unfold parseAfterAuthority
      rw [hsplit]
      simp [hinner, hsq, pathOf_eq _ u.path _ hpa1 hsplit]
  | some f =>
    have hfne : f ≠ [] := hf f hfr
    have hfe : f.isEmpty = false := by
      cases hff : f with
      | nil => exact absurd hff hfne
      | cons x xs => rfl
    have hh : hashStr u = '#' :: f := by simp [hashStr, hfr, hfe]
    rw [hh]
    cases hqe : u.query with
    | nil =>
      show parseAfterAuthority (u.path ++ (([] : List Char) ++ '#' :: f)) = (u.path, [], some f)
      rw [List.nil_append]
      have hsplit : splitAtFirst (fun c => c == '?' || c == '#') (u.path ++ '#' :: f) =
          (u.path, '#' :: f) :=
        splitAtFirst_append _ _ _ hpathpred
          (fun c cs h => by injection h with h1 _; rw [← h1]; rfl)
      unfold parseAfterAuthority
      rw [hsplit]
      simp [pathOf_eq _ u.path _ hpa1 hsplit]
    | cons q0 qrest =>
      rw [hqe] at hsq hsqchars
      show parseAfterAuthority
          (u.path ++ ('?' :: (serializeQuery (q0 :: qrest) ++ '#' :: f))) =
          (u.path, q0 :: qrest, some f)
      have hsplit : splitAtFirst (fun c => c == '?' || c == '#')
          (u.path ++ '?' :: (serializeQuery (q0 :: qrest) ++ '#' :: f)) =
          (u.path, '?' :: (serializeQuery (q0 :: qrest) ++ '#' :: f)) :=
        splitAtFirst_append _ _ _ hpathpred
          (fun c cs h => by injection h with h1 _; rw [← h1]; rfl)
      have hinner : splitAtFirst (fun c => c == '#') (serializeQuery (q0 :: qrest) ++ '#' :: f) =
          (serializeQuery (q0 :: qrest), '#' :: f) :=
        splitAtFirst_append _ _ _ hsqchars
          (fun c cs h => by injection h with h1 _; rw [← h1]; rfl)
      unfold parseAfterAuthority
      rw [hsplit]
      simp [hinner, hsq, pathOf_eq _ u.path _ hpa1 hsplit]

theorem parseUrl_roundtrip (u : ParsedURL)
    (hs : schemeOk u.scheme = true) (hs2 : ∀ c ∈ u.scheme, (c == ':') = false)
    (hh1 : u.host ≠ [])
    (hh2 : ∀ c ∈ u.host, isAuthorityEnd c = false ∧ isHostForbidden c = false ∧ (c == ':') = false)
    (hp : ∀ p, u.port = some p → p ≠ [] ∧ p.all Char.isDigit = true)
    (hpa1 : u.path ≠ []) (hpa2 : u.path.head? = some '/')
    (hpa3 : ∀ c ∈ u.path, (c == '?') = false ∧ (c == '#') = false)
    (hq : ∀ pr ∈ u.query,
      (∀ c ∈ pr.1, (c == '&') = false ∧ (c == '=') = false ∧ (c == '#') = false) ∧
      (∀ c ∈ pr.2, (c == '&') = false ∧ (c == '#') = false))
    (hf : ∀ f, u.fragment = some f → f ≠ []) :
    parseUrl (originStr u ++ u.path ++ queryStr u.query ++ hashStr u) = some u := by
  have hform : originStr u ++ u.path ++ queryStr u.query ++ hashStr u =
      u.scheme ++ ':' :: '/' :: '/' ::
        ((u.host ++ portStr u.port) ++ (u.path ++ (queryStr u.query ++ hashStr u))) := by
    simp [originStr, List.append_assoc]
  rw [hform]
  have hsplit1 : splitAtFirst (fun c => c == ':')
      (u.scheme ++ ':' :: '/' :: '/' ::
        ((u.host ++ portStr u.port) ++ (u.path ++ (queryStr u.query ++ hashStr u)))) =
      (u.scheme, ':' :: '/' :: '/' ::
        ((u.host ++ portStr u.port) ++ (u.path ++ (queryStr u.query ++ hashStr u)))) :=
    splitAtFirst_append _ _ _ hs2 (fun c cs h => by injection h with h1 _; rw [← h1]; rfl)
  have hbpath : ∀ c cs, u.path ++ (queryStr u.query ++ hashStr u) = c :: cs →
      isAuthorityEnd c = true := by
    intro c cs hc
    obtain ⟨pt, hpt⟩ : ∃ pt, u.path = '/' :: pt := by
      cases hu : u.path with
      | nil => exact absurd hu hpa1
      | cons x xs =>
        rw [hu] at hpa2
        simp at hpa2
        exact ⟨xs, by rw [hpa2]⟩
    rw [hpt] at hc
    simp only [List.cons_append] at hc
    injection hc with h1 _
    rw [← h1]
    rfl
  have hsplit2 : splitAtFirst isAuthorityEnd
      ((u.host ++ portStr u.port) ++ (u.path ++ (queryStr u.query ++ hashStr u))) =
      (u.host ++ portStr u.port, u.path ++ (queryStr u.query ++ hashStr u)) := by
    apply splitAtFirst_append
    · intro c hc
      rcases List.mem_append.mp hc with h1 | h1
      · exact (hh2 c h1).1
      · cases hport : u.port with
        | none =>
          rw [hport] at h1
          simp [portStr] at h1
        | some p =>
          rw [hport] at h1
          simp only [portStr] at h1
          rcases List.mem_cons.mp h1 with h2 | h2
          · subst h2; decide
          · have hd : c.isDigit = true := List.all_eq_true.mp (hp p hport).2 c h2
            have h3 : c ≠ '/' := char_ne_of_pred hd (by decide)
            have h4 : c ≠ '?' := char_ne_of_pred hd (by decide)
            have h5 : c ≠ '#' := char_ne_of_pred hd (by decide)
            simp [isAuthorityEnd, beq_eq_false_iff_ne.mpr h3, beq_eq_false_iff_ne.mpr h4,
              beq_eq_false_iff_ne.mpr h5]
    · exact hbpath
  have hauth := parseAuthority_serialize u.host u.port hh1 hh2 hp
  have hafter := parseAfterAuthority_serialize u hpa1 hpa3 hq hf
  have hsplit2b : splitAtFirst isAuthorityEnd
      (u.host ++ (portStr u.port ++ (u.path ++ (queryStr u.query ++ hashStr u)))) =
      (u.host ++ portStr u.port, u.path ++ (queryStr u.query ++ hashStr u)) := by
    rw [← List.append_assoc]
    exact hsplit2
  rw [parseUrl, hsplit1]
  simp [hs, hsplit2b, hauth, hafter]

theorem hashStr_of_normFrag (u v : ParsedURL) (h : v.fragment = normFrag u.fragment) :
    hashStr v = hashStr u := by
  cases hfr : u.fragment with
  | none =>
    rw [hfr] at h
    simp [hashStr, normFrag, h, hfr]
  | some f =>
    rw [hfr] at h
    cases hfe : f.isEmpty with
    | true => simp [hashStr, normFrag, h, hfr, hfe]
    | false => simp [hashStr, normFrag, h, hfr, hfe]

theorem normFrag_ne (fr : Option (List Char)) : ∀ f, normFrag fr = some f → f ≠ [] := by
  intro f h
  cases fr with
  | none => simp [normFrag] at h
  | some f0 =>
    cases hfe : f0.isEmpty with
    | true => simp [normFrag, hfe] at h
    | false =>
      simp [normFrag, hfe] at h
      rw [← h]
      intro he
      rw [he] at hfe
      simp at hfe

theorem hasParam_keptQuery (q : List (List Char × List Char)) (ps : List String) (p : String) :
    hasParam (keptQuery q ps) p = true ↔ p ∈ keptParams q ps := by
  constructor
  · intro h
    obtain ⟨pr, hpr, hbeq⟩ := List.any_eq_true.mp h
    obtain ⟨a, ha, rfl⟩ := List.mem_map.mp hpr
    have h1 : a.data = p.data := by simpa using hbeq
    rwa [← String.ext h1]
  · intro h
    apply List.any_eq_true.mpr
    exact ⟨(p.data, getParam q p), List.mem_map.mpr ⟨p, h, rfl⟩, by simp⟩

theorem keptParams_keptQuery (q : List (List Char × List Char)) (ps : List String) :
    keptParams (keptQuery q ps) ps = keptParams q ps := by
  unfold keptParams
  apply List.filter_congr
  intro p hp
  cases hh : hasParam q p with
  | false =>
    cases hk : hasParam (keptQuery q ps) p with
    | false => rfl
    | true =>
      have hmem := (hasParam_keptQuery q ps p).mp hk
      have h2 := List.mem_filter.mp hmem
      rw [hh] at h2
      exact absurd h2.2 (by simp)
  | true =>
    exact (hasParam_keptQuery q ps p).mpr (List.mem_filter.mpr ⟨hp, hh⟩)

theorem find?_map_pair (l : List String) (f : String → List Char) (p : String) (h : p ∈ l) :
    List.find? (fun pr => pr.1 == p.data) (l.map (fun a => (a.data, f a))) =
      some (p.data, f p) := by
  induction l with
  | nil => simp at h
  | cons a rest ih =>
    by_cases hap : a = p
    · subst hap
      simp only [List.map_cons]
      rw [List.find?_cons_of_pos _ (by simp)]
    · have hne : (a.data == p.data) = false := by
        apply beq_eq_false_iff_ne.mpr
        intro he
        exact hap (String.ext he)
      simp only [List.map_cons]
      rw [List.find?_cons_of_neg _ (by simp [hne])]
      have hpr : p ∈ rest := by
        rcases List.mem_cons.mp h with h1 | h1
        · exact absurd h1.symm hap
        · exact h1
      exact ih hpr

theorem getParam_keptQuery (q : List (List Char × List Char)) (ps : List String) (p : String)
    (h : p ∈ keptParams q ps) :
    getParam (keptQuery q ps) p = getParam q p := by
  unfold getParam keptQuery
  rw [find?_map_pair _ _ _ h]
  rfl

theorem keptQuery_keptQuery (q : List (List Char × List Char)) (ps : List String) :
    keptQuery (keptQuery q ps) ps = keptQuery q ps := by
  show (keptParams (keptQuery q ps) ps).map _ = (keptParams q ps).map _
  rw [keptParams_keptQuery]
  apply List.map_congr_left
  intro p hp
  rw [getParam_keptQuery q ps p hp]

theorem cleanUrl_of_parse_none {raw : String} (h : parseUrl raw.data = none) :
    cleanUrl raw = ⟨raw, []⟩ := by
  rw [cleanUrl, h]

theorem cleanUrl_of_matched {raw : String} {u : ParsedURL} {d : String}
    (h : parseUrl raw.data = some u) (hd : domainKey u.host = some d) :
    cleanUrl raw = ⟨⟨originStr u ++ u.path ++ queryStr (keptQuery u.query (lookupTable d)) ++
      hashStr u⟩, keptParams u.query (lookupTable d)⟩ := by
  rw [cleanUrl, h]
  simp [hd]

theorem cleanUrl_of_unmatched {raw : String} {u : ParsedURL}
    (h : parseUrl raw.data = some u) (hd : domainKey u.host = none) :
    cleanUrl raw = ⟨⟨originStr u ++ u.path ++ hashStr u⟩, []⟩ := by
  rw [cleanUrl, h]
  simp [hd]

theorem tableParams_chars : ∀ kv ∈ importantParams, ∀ p ∈ kv.2, ∀ c ∈ p.data,
    (c == '&') = false ∧ (c == '=') = false ∧ (c == '#') = false := by decide

theorem lookupTable_chars (d : String) : ∀ p ∈ lookupTable d, ∀ c ∈ p.data,
    (c == '&') = false ∧ (c == '=') = false ∧ (c == '#') = false := by
  intro p hp
  unfold lookupTable at hp
  cases hf : importantParams.find? (fun kv => kv.1 == d) with
  | none =>
    rw [hf] at hp
    simp at hp
  | some kv =>
    rw [hf] at hp
    exact tableParams_chars kv (List.mem_of_find?_eq_some hf) p hp

theorem getParam_chars (q : List (List Char × List Char)) (p : String)
    (hv : ∀ pr ∈ q, ∀ c ∈ pr.2, (c == '&') = false ∧ (c == '#') = false) :
    ∀ c ∈ getParam q p, (c == '&') = false ∧ (c == '#') = false := by
  unfold getParam
  cases hf : q.find? (fun pr => pr.1 == p.data) with
  | none => simp
  | some pr =>
    intro c hc
    exact hv pr (List.mem_of_find?_eq_some hf) c hc

theorem keptQuery_wf (q : List (List Char × List Char)) (d : String)
    (hv : ∀ pr ∈ q, ∀ c ∈ pr.2, (c == '&') = false ∧ (c == '#') = false) :
    ∀ pr ∈ keptQuery q (lookupTable d),
      (∀ c ∈ pr.1, (c == '&') = false ∧ (c == '=') = false ∧ (c == '#') = false) ∧
      (∀ c ∈ pr.2, (c == '&') = false ∧ (c == '#') = false) := by
  intro pr hpr
  obtain ⟨p, hp, rfl⟩ := List.mem_map.mp hpr
  have hmem : p ∈ lookupTable d := (List.mem_filter.mp hp).1
  exact ⟨lookupTable_chars d p hmem, getParam_chars q p hv⟩

/-- C3: `cleanUrl` is idempotent — for every input string `s`, cleaning the
url field of `cleanUrl s` again yields exactly `cleanUrl s` (same url string
and same preservedParams sequence), whether the input fails to parse, parses
with an unmatched hostname, or parses with a hostname matching a policy-table
domain. -/
theorem cleanUrl_idempotent (s : String) : cleanUrl (cleanUrl s).url = cleanUrl s := by
  cases hp : parseUrl s.data with
  | none =>
    rw [cleanUrl_of_parse_none hp]
    exact cleanUrl_of_parse_none hp
  | some u =>
    obtain ⟨hs, hs2, hh1, hh2, hport, hpa1, hpa2, hpa3, hqwf⟩ := parseUrl_wf hp
    cases hd : domainKey u.host with
    | none =>
      have hW : hashStr ⟨u.scheme, u.host, u.port, u.path, [], normFrag u.fragment⟩ =
          hashStr u := hashStr_of_normFrag u _ rfl
      have hrt : parseUrl (originStr u ++ u.path ++ hashStr u) =
          some ⟨u.scheme, u.host, u.port, u.path, [], normFrag u.fragment⟩ := by
        have h2 := parseUrl_roundtrip ⟨u.scheme, u.host, u.port, u.path, [], normFrag u.fragment⟩
          hs hs2 hh1 hh2 hport hpa1 hpa2 hpa3 (by simp) (normFrag_ne u.fragment)
        rw [hW] at h2
        simpa [originStr, queryStr] using h2
      have hrt2 : parseUrl (String.mk (originStr u ++ u.path ++ hashStr u)).data =
          some ⟨u.scheme, u.host, u.port, u.path, [], normFrag u.fragment⟩ := hrt
      have hstep : cleanUrl ⟨originStr u ++ u.path ++ hashStr u⟩ =
          ⟨⟨originStr u ++ u.path ++ hashStr u⟩, []⟩ := by
        rw [cleanUrl_of_unmatched hrt2 hd, hW]
        rfl
      rw [cleanUrl_of_unmatched hp hd]
      exact hstep
    | some d =>
      have hW : hashStr ⟨u.scheme, u.host, u.port, u.path,
          keptQuery u.query (lookupTable d), normFrag u.fragment⟩ = hashStr u :=
        hashStr_of_normFrag u _ rfl
      have hkq := keptQuery_wf u.query d (fun pr hpr => (hqwf pr hpr).2)
      have hrt : parseUrl (originStr u ++ u.path ++
          queryStr (keptQuery u.query (lookupTable d)) ++ hashStr u) =
          some ⟨u.scheme, u.host, u.port, u.path,
            keptQuery u.query (lookupTable d), normFrag u.fragment⟩ := by
        have h2 := parseUrl_roundtrip ⟨u.scheme, u.host, u.port, u.path,
            keptQuery u.query (lookupTable d), normFrag u.fragment⟩
          hs hs2 hh1 hh2 hport hpa1 hpa2 hpa3 hkq (normFrag_ne u.fragment)
        rw [hW] at h2
        simpa [originStr] using h2
      have hrt2 : parseUrl (String.mk (originStr u ++ u.path ++
          queryStr (keptQuery u.query (lookupTable d)) ++ hashStr u)).data =
          some ⟨u.scheme, u.host, u.port, u.path,
            keptQuery u.query (lookupTable d), normFrag u.fragment⟩ := hrt
      have hstep : cleanUrl ⟨originStr u ++ u.path ++
          queryStr (keptQuery u.query (lookupTable d)) ++ hashStr u⟩ =
          ⟨⟨originStr u ++ u.path ++ queryStr (keptQuery u.query (lookupTable d)) ++ hashStr u⟩,
            keptParams u.query (lookupTable d)⟩ := by
        rw [cleanUrl_of_matched hrt2 hd, hW]
        simp only [keptQuery_keptQuery, keptParams_keptQuery]
        rfl
      rw [cleanUrl_of_matched hp hd]
      exact hstep

theorem tableParams_nodup : ∀ kv ∈ importantParams, kv.2.Nodup := by decide

theorem lookupTable_nodup (d : String) : (lookupTable d).Nodup := by
  unfold lookupTable
  cases hf : importantParams.find? (fun kv => kv.1 == d) with
  | none => simp
  | some kv => exact tableParams_nodup kv (List.mem_of_find?_eq_some hf)

theorem filter_map_pair (l : List String) (f : String → List Char) (p : String)
    (hnd : l.Nodup) (h : p ∈ l) :
    (l.map (fun a => (a.data, f a))).filter (fun pr => pr.1 == p.data) = [(p.data, f p)] := by
  induction l with
  | nil => simp at h
  | cons a rest ih =>
    rcases List.mem_cons.mp h with h1 | h1
    · subst h1
      simp only [List.map_cons]
      rw [List.filter_cons_of_pos (by simp)]
      have hnr : p ∉ rest := (List.nodup_cons.mp hnd).1
      have hnil : (rest.map (fun a => (a.data, f a))).filter (fun pr => pr.1 == p.data) = [] := by
        apply List.filter_eq_nil_iff.mpr
        intro pr hpr
        obtain ⟨a2, ha2, rfl⟩ := List.mem_map.mp hpr
        intro hb
        have ha2p : a2 = p := String.ext (by simpa using hb)
        exact hnr (ha2p ▸ ha2)
      rw [hnil]
    · have hne : a ≠ p := fun he => (List.nodup_cons.mp hnd).1 (he ▸ h1)
      simp only [List.map_cons]
      rw [List.filter_cons_of_neg (by simpa using fun he => hne (String.ext he))]
      exact ih (List.nodup_cons.mp hnd).2 h1

/-- C1: `cleanUrl` is total over all strings and never signals an error to
its caller: for every input that fails to parse as an absolute URL it
returns the input string unchanged with an empty preserved-parameter list,
and in particular
`cleanUrl "not a url" = { url := "not a url", preservedParams := [] }`. -/
theorem cleanUrl_malformed_echo :
    (∀ s : String, parseUrl s.data = none → cleanUrl s = ⟨s, []⟩) ∧
    cleanUrl "not a url" = ⟨"not a url", []⟩ := by
  constructor
  · intro s h
    rw [cleanUrl, h]
  · decide

/-- C1 witness: the general fallback clause applied at the concrete
malformed input "not a url". -/
theorem cleanUrl_malformed_echo_witness :
    parseUrl "not a url".data = none ∧ cleanUrl "not a url" = ⟨"not a url", []⟩ :=
  ⟨by decide, cleanUrl_malformed_echo.1 "not a url" (by decide)⟩

/-- C2 counterexample: on `https://youtube.com/watch?v=a&v=b` the parameter
`v` is repeated with last occurrence value "b", yet `cleanUrl` keeps the
FIRST occurrence's value "a" (that is what the single-value lookup
`searchParams.get` exposes), so "last value wins" is false as stated. -/
theorem cleanUrl_last_wins_cex :
    cleanUrl "https://youtube.com/watch?v=a&v=b" =
      ⟨"https://youtube.com/watch?v=a", ["v"]⟩ ∧
    (parseUrl "https://youtube.com/watch?v=a&v=b".data).map ParsedURL.query =
      some [(['v'], ['a']), (['v'], ['b'])] ∧
    cleanUrl "https://youtube.com/watch?v=a&v=b" ≠
      ⟨"https://youtube.com/watch?v=b", ["v"]⟩ := by
  decide

/-- C2 (amended): for every parsed input with a matched domain and a kept
query-parameter name, the cleaned query retains exactly one value for that
name — the value of the FIRST occurrence of the name in the input query,
the one exposed by the single-value lookup `searchParams.get`. -/
theorem cleanUrl_repeated_first_wins (s : String) (u : ParsedURL) (d p : String)
    (hp : parseUrl s.data = some u) (hd : domainKey u.host = some d)
    (hmem : p ∈ keptParams u.query (lookupTable d)) :
    (cleanUrl s).preservedParams = keptParams u.query (lookupTable d) ∧
    (keptQuery u.query (lookupTable d)).filter (fun pr => pr.1 == p.data) =
      [(p.data, getParam u.query p)] ∧
    ∃ pre post, u.query = pre ++ (p.data, getParam u.query p) :: post ∧
      ∀ pr ∈ pre, pr.1 ≠ p.data := by
  have hfil := List.mem_filter.mp hmem
  have hhas : hasParam u.query p = true := hfil.2
  refine ⟨by rw [cleanUrl_of_matched hp hd], ?_, ?_⟩
  · exact filter_map_pair (keptParams u.query (lookupTable d)) _ p
      (List.Nodup.filter _ (lookupTable_nodup d)) hmem
  · obtain ⟨pr0, hfind⟩ : ∃ pr0, u.query.find? (fun pr => pr.1 == p.data) = some pr0 := by
      have h2 : ∃ pr, pr ∈ u.query ∧ (pr.1 == p.data) = true := by
        simpa [hasParam, List.any_eq_true] using hhas
      obtain ⟨pr, hpr, hb⟩ := h2
      cases hf2 : u.query.find? (fun pr => pr.1 == p.data) with
      | some x => exact ⟨x, rfl⟩
      | none => exact absurd hb (by simpa using List.find?_eq_none.mp hf2 pr hpr)
    obtain ⟨hpred, pre, post, heq, hpre⟩ := find?_eq_some_split _ _ _ hfind
    have h1 : pr0.1 = p.data := by simpa using hpred
    have hg : getParam u.query p = pr0.2 := by
      unfold getParam
      rw [hfind]
    refine ⟨pre, post, ?_, ?_⟩
    · rw [hg, ← h1]
      exact heq
    · intro pr hpr2
      exact beq_eq_false_iff_ne.mp (hpre pr hpr2)

/-- C2 witness: the amended first-value-wins behaviour at the concrete
repeated-parameter input `https://youtube.com/watch?v=a&v=b`. -/
theorem cleanUrl_repeated_first_wins_witness :
    (cleanUrl "https://youtube.com/watch?v=a&v=b").preservedParams =
      keptParams [(['v'], ['a']), (['v'], ['b'])] (lookupTable "youtube.com") ∧
    (keptQuery [(['v'], ['a']), (['v'], ['b'])] (lookupTable "youtube.com")).filter
        (fun pr => pr.1 == "v".data) =
      [("v".data, getParam [(['v'], ['a']), (['v'], ['b'])] "v")] ∧
    ∃ pre post, [(['v'], ['a']), (['v'], ['b'])] =
        pre ++ ("v".data, getParam [(['v'], ['a']), (['v'], ['b'])] "v") :: post ∧
      ∀ pr ∈ pre, pr.1 ≠ "v".data :=
  cleanUrl_repeated_first_wins "https://youtube.com/watch?v=a&v=b"
    ⟨"https".data, "youtube.com".data, none, "/watch".data,
      [(['v'], ['a']), (['v'], ['b'])], none⟩
    "youtube.com" "v" (by decide) (by decide) (by decide)

/-- C4: the domain lookup returns the first table key, in declaration order,
matched by the host under exact, subdomain or ccTLD-variant matching (at
most one key is used), and in particular "m.youtube.com" matches the
"youtube.com" policy via the subdomain rule. -/
theorem domainKey_first_match :
    (∀ h d, domainKey h = some d → domainMatches h d = true ∧
      ∃ pre post, domainKeys = pre ++ d :: post ∧
        ∀ d2 ∈ pre, domainMatches h d2 = false) ∧
    domainKey "m.youtube.com".data = some "youtube.com" ∧
    subdomainMatches "m.youtube.com".data "youtube.com" = true := by
  refine ⟨?_, by decide, by decide⟩
  intro h d hd
  have h2 := find?_eq_some_split _ _ _ hd
  exact ⟨h2.1, h2.2⟩

/-- C4 witness: the first-match characterisation applied at the concrete
host "m.youtube.com". -/
theorem domainKey_first_match_witness :
    domainMatches "m.youtube.com".data "youtube.com" = true ∧
    ∃ pre post, domainKeys = pre ++ "youtube.com" :: post ∧
      ∀ d2 ∈ pre, domainMatches "m.youtube.com".data d2 = false :=
  domainKey_first_match.1 "m.youtube.com".data "youtube.com" (by decide)

/-- C5: the documented youtube example — only the policy parameters present
in the input are kept, in the youtube.com policy-list order
["v", "t", "list", "index", "start"], not in original-URL order. -/
theorem cleanUrl_youtube_example :
    cleanUrl "https://www.youtube.com/watch?v=abc123&utm_source=x&list=PL1" =
      ⟨"https://www.youtube.com/watch?v=abc123&list=PL1", ["v", "list"]⟩ ∧
    lookupTable "youtube.com" = ["v", "t", "list", "index", "start"] := by
  decide

/-- C6: for every input that parses and has a nonempty fragment, the
fragment is carried into the output unchanged (the output ends in '#'
followed by exactly the input fragment), whether or not the hostname
matches a policy-table domain. -/
theorem cleanUrl_fragment_preserved (s : String) (u : ParsedURL) (f : List Char)
    (hp : parseUrl s.data = some u) (hf : u.fragment = some f) (hne : f ≠ []) :
    ∃ pre, ((cleanUrl s).url).data = pre ++ '#' :: f := by
  have hfe : f.isEmpty = false := by
    cases hff : f with
    | nil => exact absurd hff hne
    | cons x xs => rfl
  have hh : hashStr u = '#' :: f := by simp [hashStr, hf, hfe]
  cases hd : domainKey u.host with
  | some d =>
    rw [cleanUrl_of_matched hp hd]
    exact ⟨originStr u ++ u.path ++ queryStr (keptQuery u.query (lookupTable d)), by rw [hh]⟩
  | none =>
    rw [cleanUrl_of_unmatched hp hd]
    exact ⟨originStr u ++ u.path, by rw [hh]⟩

/-- C6 witness: fragment preservation at the concrete input
`https://example.com/a#frag`. -/
theorem cleanUrl_fragment_preserved_witness :
    ∃ pre, ((cleanUrl "https://example.com/a#frag").url).data = pre ++ '#' :: "frag".data :=
  cleanUrl_fragment_preserved "https://example.com/a#frag"
    ⟨"https".data, "example.com".data, none, "/a".data, [], some "frag".data⟩
    "frag".data (by decide) rfl (by decide)

/-- C7: every name in `preservedParams` comes from a successful parse with a
matched domain, belongs to that domain's policy parameter list, and was
present as a query parameter of the input URL; in particular the list is
empty whenever no domain matches or parsing fails. -/
theorem preservedParams_subset (s : String) (p : String)
    (h : p ∈ (cleanUrl s).preservedParams) :
    ∃ u d, parseUrl s.data = some u ∧ domainKey u.host = some d ∧
      p ∈ lookupTable d ∧ hasParam u.query p = true := by
  cases hp : parseUrl s.data with
  | none =>
    rw [cleanUrl_of_parse_none hp] at h
    simp at h
  | some u =>
    cases hd : domainKey u.host with
    | none =>
      rw [cleanUrl_of_unmatched hp hd] at h
      simp at h
    | some d =>
      rw [cleanUrl_of_matched hp hd] at h
      have h2 := List.mem_filter.mp h
      exact ⟨u, d, rfl, hd, h2.1, h2.2⟩

/-- C7 witness: the subset property applied to the name "v" preserved from
the concrete youtube input. -/
theorem preservedParams_subset_witness :
    ∃ u d,
      parseUrl "https://www.youtube.com/watch?v=abc123&utm_source=x&list=PL1".data = some u ∧
      domainKey u.host = some d ∧ "v" ∈ lookupTable d ∧ hasParam u.query "v" = true :=
  preservedParams_subset "https://www.youtube.com/watch?v=abc123&utm_source=x&list=PL1" "v"
    (by decide)

/-- C8: for every parsed input whose hostname matches no policy-table key,
the output is origin plus pathname plus the fragment part with zero query
parameters and an empty preservedParams; in particular
`cleanUrl "https://example.com/page?utm_source=x&ref=y"` strips everything
to `https://example.com/page`. -/
theorem cleanUrl_unmatched_strip :
    (∀ (s : String) (u : ParsedURL), parseUrl s.data = some u → domainKey u.host = none →
      cleanUrl s = ⟨⟨originStr u ++ u.path ++ hashStr u⟩, []⟩) ∧
    cleanUrl "https://example.com/page?utm_source=x&ref=y" =
      ⟨"https://example.com/page", []⟩ := by
  exact ⟨fun s u hp hd => cleanUrl_of_unmatched hp hd, by decide⟩

/-- C8 witness: the unmatched-domain formula applied at the concrete input
`https://example.com/page?utm_source=x&ref=y`. -/
theorem cleanUrl_unmatched_strip_witness :
    cleanUrl "https://example.com/page?utm_source=x&ref=y" =
      ⟨⟨originStr ⟨"https".data, "example.com".data, none, "/page".data,
          [("utm_source".data, "x".data), ("ref".data, "y".data)], none⟩ ++ "/page".data ++
        hashStr ⟨"https".data, "example.com".data, none, "/page".data,
          [("utm_source".data, "x".data), ("ref".data, "y".data)], none⟩⟩, []⟩ :=
  cleanUrl_unmatched_strip.1 "https://example.com/page?utm_source=x&ref=y"
    ⟨"https".data, "example.com".data, none, "/page".data,
      [("utm_source".data, "x".data), ("ref".data, "y".data)], none⟩
    (by decide) (by decide)

/-- C9: `isValidUrl` is a pure total Boolean function returning true exactly
when the input parses as an absolute URL in the model of the platform URL
constructor (scheme and host required), so relative paths, bare domains
without a scheme, and malformed strings all yield false. -/
theorem isValidUrl_spec :
    (∀ s : String, isValidUrl s = true ↔ ∃ u, parseUrl s.data = some u) ∧
    (∀ (s : String) (u : ParsedURL), parseUrl s.data = some u →
      schemeOk u.scheme = true ∧ u.host ≠ []) ∧
    isValidUrl "not a url" = false ∧
    isValidUrl "/relative/path" = false ∧
    isValidUrl "example.com" = false ∧
    isValidUrl "https://example.com/page" = true := by
  refine ⟨?_, ?_, by decide, by decide, by decide, by decide⟩
  · intro s
    unfold isValidUrl
    cases hp : parseUrl s.data with
    | none => simp
    | some u => simp
  · intro s u hp
    have h := parseUrl_wf hp
    exact ⟨h.1, h.2.2.1⟩

/-- C9 witness: the scheme-and-host requirement instantiated at the parse of
`https://example.com/page`. -/
theorem isValidUrl_spec_witness :
    schemeOk (ParsedURL.mk "https".data "example.com".data none "/page".data [] none).scheme =
      true ∧
    (ParsedURL.mk "https".data "example.com".data none "/page".data [] none).host ≠ [] :=
  isValidUrl_spec.2.1 "https://example.com/page"
    ⟨"https".data, "example.com".data, none, "/page".data, [], none⟩ (by decide)

/-- C10 counterexample: the host "x.maps.google.com.fr" matches the key
"maps.google.com" (through the ccTLD-variant rule) but does NOT end with
".google.com" and is not equal to "google.com", so the earlier key
"google.com" does not match it via the subdomain rule as the claim states —
google.com only matches it through the ccTLD rule (and still wins). -/
theorem google_shadow_cex :
    domainMatches "x.maps.google.com.fr".data "maps.google.com" = true ∧
    subdomainMatches "x.maps.google.com.fr".data "google.com" = false ∧
    ("x.maps.google.com.fr".data == "google.com".data) = false ∧
    domainKey "x.maps.google.com.fr".data = some "google.com" := by
  decide

/-- C10 (amended): the policy entries maps.google.com, docs.google.com,
drive.google.com and meet.google.com are unreachable — every host matching
one of them is already matched by the earlier key google.com (via the
subdomain rule for exact and subdomain matches, via the ccTLD-variant rule
for ccTLD matches) and by no key before it, so the lookup always returns
google.com with its parameter list ["q", "tbm", "tbs", "start", "hl"]. -/
theorem google_shadow (host : List Char)
    (h : domainMatches host "maps.google.com" = true ∨
      domainMatches host "docs.google.com" = true ∨
      domainMatches host "drive.google.com" = true ∨
      domainMatches host "meet.google.com" = true) :
    domainKey host = some "google.com" ∧
    lookupTable "google.com" = ["q", "tbm", "tbs", "start", "hl"] ∧
    domainKey host ≠ some "maps.google.com" ∧ domainKey host ≠ some "docs.google.com" ∧
    domainKey host ≠ some "drive.google.com" ∧ domainKey host ≠ some "meet.google.com" := by
  have hP : dotTail "google.com" host := by
    rcases h with h | h | h | h
    · exact matches_dotTail_of_key host "maps.google.com" (by decide) h
    · exact matches_dotTail_of_key host "docs.google.com" (by decide) h
    · exact matches_dotTail_of_key host "drive.google.com" (by decide) h
    · exact matches_dotTail_of_key host "meet.google.com" (by decide) h
  have hk := dotTail_domainKey host hP
  refine ⟨hk, by decide, ?_, ?_, ?_, ?_⟩ <;> (rw [hk]; decide)

/-- C10 witness: the shadowing applied at the host "maps.google.com"
itself. -/
theorem google_shadow_witness :
    domainKey "maps.google.com".data = some "google.com" ∧
    lookupTable "google.com" = ["q", "tbm", "tbs", "start", "hl"] ∧
    domainKey "maps.google.com".data ≠ some "maps.google.com" ∧
    domainKey "maps.google.com".data ≠ some "docs.google.com" ∧
    domainKey "maps.google.com".data ≠ some "drive.google.com" ∧
    domainKey "maps.google.com".data ≠ some "meet.google.com" :=
  google_shadow "maps.google.com".data (Or.inl (by decide))
